import Mathlib

/-!
Verification of the nodedup dependency-duplication scanner.

The definitions below are a shallow embedding of the Rust sources:
`src/parser.rs` (version normalization, comparison, aggregation and the
final duplicate filter) and `src/lookup.rs` (the path-fragment ignore
pre-filter).  Strings are Lean `String`s; the character-level operations
of the source are carried out on `String.data`.  Rust `u32` parsing is
modelled as a `Nat` parser that rejects values `≥ 2^32`, matching the
overflow error of `str::parse::<u32>()`.  The fatal `unwrap()` on a
manifest parse failure is modelled with `Except`.
-/

namespace Nodedup

/-- Record stored per (name, distinct normalized version).
Mirror of `struct PackageValue` in `src/parser.rs`. -/
structure PackageValue where
  name : String
  version : String
  path : String
deriving DecidableEq, Repr

/-- `PackageValue::new`. -/
def PackageValue.new (name version path : String) : PackageValue :=
  ⟨name, version, path⟩

/-- `clean_version`: keep only `.` and ASCII digit characters. -/
def clean_version (versionStr : String) : String :=
  ⟨versionStr.data.filter (fun c => c == '.' || c.isDigit)⟩

/-- Digit string to number, most significant first. -/
def digitsToNat (l : List Char) : Nat :=
  l.foldl (fun n c => n * 10 + (c.toNat - '0'.toNat)) 0

/-- Rust `str::parse::<u32>()`: optional leading `+`, then one or more
ASCII digits, value below `2^32`; anything else is an error (`none`). -/
def rustParseU32 (s : List Char) : Option Nat :=
  let t := match s with
    | '+' :: r => r
    | _ => s
  if t ≠ [] ∧ t.all Char.isDigit then
    if digitsToNat t < 4294967296 then some (digitsToNat t) else none
  else none

/-- Split a character list on a separator, keeping empty pieces
(the behavior of Rust `str::split(sep)`): the result is never empty. -/
def splitOnChar (sep : Char) : List Char → List (List Char)
  | [] => [[]]
  | c :: cs =>
    match splitOnChar sep cs with
    | [] => [[c]]
    | h :: t => if c == sep then [] :: h :: t else (c :: h) :: t

/-- `get_versions`: split on `.`, read up to three components with
`parse::<u32>().unwrap_or(0)`; a missing component is `"0"`. -/
def get_versions (version : String) : Nat × Nat × Nat :=
  let parts := splitOnChar '.' version.data
  ((rustParseU32 (parts.getD 0 ['0'])).getD 0,
   (rustParseU32 (parts.getD 1 ['0'])).getD 0,
   (rustParseU32 (parts.getD 2 ['0'])).getD 0)

/-- `is_new_version_higher`: compare the new version against only the
first element of the entry, (major, minor, patch) lexicographically. -/
def is_new_version_higher (version : String) (entry : List PackageValue) : Bool :=
  match entry with
  | [] => false
  | head :: _ =>
    let (major, minor, patch) := get_versions head.version
    let (majorNew, minorNew, patchNew) := get_versions version
    decide (majorNew > major) ||
      (decide (majorNew = major) && decide (minorNew > minor)) ||
      (decide (majorNew = major) && decide (minorNew = minor) && decide (patchNew > patch))

/-- The aggregate, `HashMap<String, Vec<PackageValue>>`, modelled as an
association list keyed by dependency name. -/
abbrev Aggregate : Type := List (String × List PackageValue)

/-- Sequence currently stored for a name (empty when the key is absent),
the read half of `map.entry(key).or_default()`. -/
def lookupDep : Aggregate → String → List PackageValue
  | [], _ => []
  | e :: es, key => if e.1 == key then e.2 else lookupDep es key

/-- Store a sequence under a name: replace in place when the key exists,
append the key otherwise (the write half of `entry`). -/
def setDep : Aggregate → String → List PackageValue → Aggregate
  | [], key, vs => [(key, vs)]
  | e :: es, key, vs =>
    if e.1 == key then (key, vs) :: es else e :: setDep es key vs

/-- `process_dependency`: normalize, skip exact duplicates, otherwise
front-insert when strictly higher than the head, else append. -/
def process_dependency (key valueStr path : String) (m : Aggregate) : Aggregate :=
  let entry := lookupDep m key
  let version := clean_version valueStr
  let packageValue := PackageValue.new key version path
  if entry.any (fun v => v.version == version) then m
  else if is_new_version_higher version entry then
    setDep m key (packageValue :: entry)
  else
    setDep m key (entry ++ [packageValue])

/-- Parsed manifest document, mirror of `serde_json::Value`. -/
inductive Json where
  | null : Json
  | bool : Bool → Json
  | num : Int → Json
  | str : String → Json
  | arr : List Json → Json
  | obj : List (String × Json) → Json

/-- `Value::get(key)`: field lookup, `None` on non-objects. -/
def Json.get : Json → String → Option Json
  | .obj kvs, key => (kvs.find? (fun e => e.1 == key)).map (fun e => e.2)
  | _, _ => none

/-- `Value::as_str()`: the string payload, `None` for non-strings. -/
def Json.asStr : Json → Option String
  | .str s => some s
  | _ => none

/-- `traverse_deps`: iterate a `dependencies`-style object, skipping
entries whose value is not a string, and feed the string-valued ones to
`process_dependency`.  Non-object (or absent) input contributes nothing. -/
def traverse_deps (deps : Option Json) (m : Aggregate) (path : String) : Aggregate :=
  match deps with
  | some (.obj kvs) =>
    kvs.foldl (fun acc kv =>
      match kv.2.asStr with
      | some s => process_dependency kv.1 s path acc
      | none => acc) m
  | _ => m

/-- `build_hash_map`: process `dependencies` then `devDependencies`. -/
def build_hash_map (value : Json) (path : String) (m : Aggregate) : Aggregate :=
  traverse_deps (value.get "devDependencies")
    (traverse_deps (value.get "dependencies") m path) path

/-- `keep_bad_values`: drop every name whose sequence has length ≤ 1 or
that occurs in the ignore list; surviving pairs are untouched. -/
def keep_bad_values (m : Aggregate) (ignores : List String) : Aggregate :=
  m.filter (fun e => decide (1 < e.2.length) && !(ignores.any (fun i => i == e.1)))

/-- Strip one trailing carriage return, as Rust `str::lines` does for a
piece that was terminated by a line feed. -/
def stripCR (l : List Char) : List Char :=
  match l.getLast? with
  | some '\r' => l.dropLast
  | _ => l

/-- Rust `str::lines`: split on `\n`, strip a `\r` left at the end of
each terminated piece, and drop the optional final empty piece. -/
def rustLines (s : String) : List String :=
  let pieces := splitOnChar '\n' s.data
  let body := pieces.dropLast.map stripCR
  let last := (pieces.getLast?).getD []
  (if last = [] then body else body ++ [last]).map (fun l => (⟨l⟩ : String))

/-- Rust `str::trim`: drop whitespace from both ends. -/
def rustTrim (s : String) : String :=
  ⟨((s.data.dropWhile Char.isWhitespace).reverse.dropWhile Char.isWhitespace).reverse⟩

/-- `parse_ignores`: one ignore name per line, trimmed. -/
def parse_ignores (ignores : String) : List String :=
  (rustLines ignores).map rustTrim

/-- The manifest-reading loop of `find_duplicate_dependencies`: each
path's parse result is consumed in order; a parse failure aborts the
whole run at once (the `unwrap()` panic), surfacing that manifest's
error, and no aggregate is produced. -/
def buildAll (parseFile : String → Except String Json) (m : Aggregate) :
    List String → Except String Aggregate
  | [] => .ok m
  | p :: ps =>
    match parseFile p with
    | .error e => .error e
    | .ok v => buildAll parseFile (build_hash_map v p m) ps

/-- `find_duplicate_dependencies`: read the ignore file (a read failure
degrades to no ignores via `unwrap_or_default`), build the aggregate
over all manifests fatally, then filter with `keep_bad_values`. -/
def find_duplicate_dependencies (parseFile : String → Except String Json)
    (readIgnores : Except String String) (paths : List String) :
    Except String Aggregate :=
  let ignores := parse_ignores ((readIgnores.toOption).getD "")
  match buildAll parseFile [] paths with
  | .error e => .error e
  | .ok m => .ok (keep_bad_values m ignores)

/-- First path whose parse fails, with its error (the manifest at which
the Rust loop panics). -/
def firstFail (parseFile : String → Except String Json) :
    List String → Option (String × String)
  | [] => none
  | p :: ps =>
    match parseFile p with
    | .error e => some (p, e)
    | .ok _ => firstFail parseFile ps

/-- `is_node_modules_path` from `src/lookup.rs`: some path component
equals `node_modules`. -/
def is_node_modules_path (p : String) : Bool :=
  (splitOnChar '/' p.data).any (fun c => c == "node_modules".data)

/-- `needle` is a prefix of the second list. -/
def startsWithC : List Char → List Char → Bool
  | [], _ => true
  | _ :: _, [] => false
  | a :: as, b :: bs => a == b && startsWithC as bs

/-- Substring test, Rust `str::contains(&str)`. -/
def containsSub (needle : List Char) : List Char → Bool
  | [] => startsWithC needle []
  | c :: cs => startsWithC needle (c :: cs) || containsSub needle cs

/-- The `filter_entry` predicate of `get_package_json_files`: reject
`node_modules` paths, and reject a path when some ignore fragment that
contains a `/` occurs in it as a substring. -/
def keepEntry (ignores : List String) (path : String) : Bool :=
  !is_node_modules_path path &&
    !(ignores.any (fun i =>
      i.data.any (fun c => c == '/') && containsSub i.data path.data))

/-- `get_package_json_files` over an already-walked list of candidate
paths: apply the `filter_entry` predicate, then keep files whose final
component is `package.json`. -/
def get_package_json_files (entries : List String) (ignores : List String) :
    List String :=
  (entries.filter (keepEntry ignores)).filter
    (fun p => (splitOnChar '/' p.data).getLastD [] == "package.json".data)

/-- Claim C6 support: the normalizer's character predicate. -/
def keepChar (c : Char) : Bool := c == '.' || c.isDigit

/-- Claim C10 support: `parse::<u32>().unwrap_or(0)` as one function. -/
def parseOr0 (s : List Char) : Nat := (rustParseU32 s).getD 0

/-- The C2 invariant: within every name's sequence, no two records have
the same (exact-string) normalized version. -/
def versionsNodup (m : Aggregate) : Prop :=
  ∀ e ∈ m, (e.2.map PackageValue.version).Nodup

instance versionsNodupDec (m : Aggregate) : Decidable (versionsNodup m) := by
  unfold versionsNodup
  infer_instance

end Nodedup

namespace Nodedup

theorem lookupDep_setDep (m : Aggregate) (k : String) (vs : List PackageValue) :
    lookupDep (setDep m k vs) k = vs := by
  induction m with
  | nil => simp [setDep, lookupDep]
  | cons e es ih =>
    by_cases h : e.1 == k
    · simp [setDep, h, lookupDep]
    · simp [setDep, h, lookupDep, ih]

theorem mem_setDep {m : Aggregate} {k : String} {vs : List PackageValue} {e}
    (h : e ∈ setDep m k vs) : e = (k, vs) ∨ e ∈ m := by
  induction m with
  | nil => simpa [setDep] using h
  | cons f fs ih =>
    by_cases hf : f.1 == k
    · simp only [setDep, hf, if_true, List.mem_cons] at h
      rcases h with h | h
      · exact .inl h
      · exact .inr (List.mem_cons_of_mem _ h)
    · simp only [setDep, hf, if_false, Bool.false_eq_true, List.mem_cons] at h
      rcases h with h | h
      · exact .inr (by simp [h])
      · rcases ih h with h | h
        · exact .inl h
        · exact .inr (List.mem_cons_of_mem _ h)

theorem lookupDep_nodup {m : Aggregate} (hm : versionsNodup m) (k : String) :
    ((lookupDep m k).map PackageValue.version).Nodup := by
  induction m with
  | nil => simp [lookupDep]
  | cons e es ih =>
    by_cases h : e.1 == k
    · simpa [lookupDep, h] using hm e (by simp)
    · simpa [lookupDep, h] using ih (fun f hf => hm f (List.mem_cons_of_mem _ hf))

theorem versionsNodup_setDep {m : Aggregate} (hm : versionsNodup m)
    {k : String} {vs : List PackageValue}
    (hvs : (vs.map PackageValue.version).Nodup) : versionsNodup (setDep m k vs) := by
  intro e he
  rcases mem_setDep he with rfl | he'
  · simpa using hvs
  · exact hm e he'

end Nodedup

open Nodedup

/-- C6: `clean_version` returns exactly the subsequence of the input's
characters that are ASCII digits or `.`, in order: it is a sublist of
the input consisting only of kept characters, it is maximal among such
sublists, and `"^1.0.0"` ↦ `"1.0.0"`, `">=2.1"` ↦ `"2.1"`. -/
theorem clean_version_subsequence :
    (∀ s : String, (clean_version s).data.Sublist s.data) ∧
    (∀ s : String, ∀ c ∈ (clean_version s).data, keepChar c = true) ∧
    (∀ s : String, ∀ t : List Char, t.Sublist s.data →
      (∀ c ∈ t, keepChar c = true) → t.Sublist (clean_version s).data) ∧
    clean_version "^1.0.0" = "1.0.0" ∧ clean_version ">=2.1" = "2.1" := by
  refine ⟨fun s => ?_, fun s c hc => ?_, fun s t hsub hall => ?_, by decide, by decide⟩
  · exact List.filter_sublist s.data
  · exact List.of_mem_filter hc
  · have ht : t.filter keepChar = t := List.filter_eq_self.mpr hall
    have := List.Sublist.filter keepChar hsub
    rw [ht] at this
    exact this

/-- Witness for C6 at a concrete input. -/
theorem clean_version_subsequence_witness :
    ['2', '.', '1'].Sublist (clean_version ">=2.1").data :=
  clean_version_subsequence.2.2.1 ">=2.1" ['2', '.', '1'] (by decide) (by decide)

/-- C7: the normalizer is idempotent:
`clean_version (clean_version s) = clean_version s` for every string. -/
theorem clean_version_idempotent (s : String) :
    clean_version (clean_version s) = clean_version s := by
  unfold clean_version
  congr 1
  show (s.data.filter _).filter _ = _
  simp [List.filter_filter]

/-- C10: a component that fails to parse as a 32-bit unsigned integer —
including an all-digit component exceeding `4294967295` — is treated as
`0` by the comparator, so `"4294967296.0.0"` reads as `(0,0,0)`, equal
to `"0.0.0"`, and is never considered higher than any existing head. -/
theorem overflow_component_zero :
    (∀ s : List Char, rustParseU32 s = none → parseOr0 s = 0) ∧
    rustParseU32 "4294967296".data = none ∧
    get_versions "4294967296.0.0" = get_versions "0.0.0" ∧
    get_versions "4294967296.0.0" = (0, 0, 0) ∧
    (∀ entry : List PackageValue,
      is_new_version_higher "4294967296.0.0" entry = false) := by
  refine ⟨fun s h => by simp [parseOr0, h], by decide, by decide, by decide,
    fun entry => ?_⟩
  cases entry with
  | nil => rfl
  | cons head tail =>
    rcases hv : get_versions head.version with ⟨ma, mi, pa⟩
    simp [is_new_version_higher, hv,
      show get_versions "4294967296.0.0" = (0, 0, 0) by decide]

/-- Witness for C10 at a concrete component. -/
theorem overflow_component_zero_witness : parseOr0 "4294967296".data = 0 :=
  overflow_component_zero.1 "4294967296".data (by decide)

/-- C1: when a new normalized version not already present is aggregated,
it goes to the front exactly when the sequence is empty or the new
version beats the current head under (major, minor, patch) comparison,
and to the back otherwise; aggregating 1.0.0, 2.0.0, 2.1.0, 2.1.1,
2.0.1 in that order yields [2.1.1, 2.1.0, 2.0.0, 1.0.0, 2.0.1]. -/
theorem process_dependency_head_only :
    (∀ key valueStr path m,
      clean_version valueStr ∉ (lookupDep m key).map PackageValue.version →
      lookupDep (process_dependency key valueStr path m) key =
        if lookupDep m key = [] ∨
            is_new_version_higher (clean_version valueStr) (lookupDep m key) = true then
          PackageValue.new key (clean_version valueStr) path :: lookupDep m key
        else lookupDep m key ++ [PackageValue.new key (clean_version valueStr) path]) ∧
    lookupDep (["1.0.0", "2.0.0", "2.1.0", "2.1.1", "2.0.1"].foldl
        (fun m v => process_dependency "mongoose" v "" m) []) "mongoose" =
      [PackageValue.new "mongoose" "2.1.1" "", PackageValue.new "mongoose" "2.1.0" "",
       PackageValue.new "mongoose" "2.0.0" "", PackageValue.new "mongoose" "1.0.0" "",
       PackageValue.new "mongoose" "2.0.1" ""] := by
  constructor
  · intro key valueStr path m hnot
    have hany : (lookupDep m key).any
        (fun v => v.version == clean_version valueStr) = false := by
      cases h : (lookupDep m key).any (fun v => v.version == clean_version valueStr) with
      | false => rfl
      | true =>
        obtain ⟨v, hv, hveq⟩ := List.any_eq_true.mp h
        exact absurd (List.mem_map.mpr ⟨v, hv, by simpa using hveq⟩) hnot
    by_cases hh : is_new_version_higher (clean_version valueStr) (lookupDep m key) = true
    · simp [process_dependency, hany, hh, lookupDep_setDep]
    · by_cases he : lookupDep m key = []
      · simp [process_dependency, hany, hh, he, lookupDep_setDep]
      · simp [process_dependency, hany, hh, he, lookupDep_setDep]
  · decide

/-- Witness for C1 at a concrete aggregation step. -/
theorem process_dependency_head_only_witness :
    lookupDep (process_dependency "a" "^2.0.0" "p"
        [("a", [PackageValue.new "a" "1.0.0" "q"])]) "a" =
      [PackageValue.new "a" "2.0.0" "p", PackageValue.new "a" "1.0.0" "q"] := by
  rw [process_dependency_head_only.1 "a" "^2.0.0" "p"
    [("a", [PackageValue.new "a" "1.0.0" "q"])] (by decide)]
  decide

/-- C2: every aggregation step preserves the invariant that no two
records of one name carry the same normalized version string, and a
duplicate arrival leaves the whole aggregate (including the stored
origin path) unchanged. -/
theorem process_dependency_nodup_invariant :
    (∀ key valueStr path m, versionsNodup m →
      versionsNodup (process_dependency key valueStr path m)) ∧
    (∀ key valueStr path m,
      clean_version valueStr ∈ (lookupDep m key).map PackageValue.version →
      process_dependency key valueStr path m = m) := by
  constructor
  · intro key valueStr path m hm
    by_cases hd : (lookupDep m key).any
        (fun v => v.version == clean_version valueStr) = true
    · simpa [process_dependency, hd] using hm
    · have hnotmem : clean_version valueStr ∉
          (lookupDep m key).map PackageValue.version := by
        intro hmem
        obtain ⟨v, hv, hveq⟩ := List.mem_map.mp hmem
        exact hd (List.any_eq_true.mpr ⟨v, hv, by simp [hveq]⟩)
      by_cases hh : is_new_version_higher (clean_version valueStr) (lookupDep m key) = true
      · have hrw : process_dependency key valueStr path m =
            setDep m key (PackageValue.new key (clean_version valueStr) path ::
              lookupDep m key) := by
          simp [process_dependency, hd, hh]
        rw [hrw]
        apply versionsNodup_setDep hm
        simp only [List.map_cons]
        exact List.nodup_cons.mpr ⟨by simpa [PackageValue.new] using hnotmem,
          lookupDep_nodup hm key⟩
      · have hrw : process_dependency key valueStr path m =
            setDep m key (lookupDep m key ++
              [PackageValue.new key (clean_version valueStr) path]) := by
          simp [process_dependency, hd, hh]
        rw [hrw]
        apply versionsNodup_setDep hm
        rw [List.map_append]
        simp [List.nodup_append, lookupDep_nodup hm key, PackageValue.new]
        simpa [PackageValue.new] using hnotmem
  · intro key valueStr path m hmem
    obtain ⟨v, hv, hveq⟩ := List.mem_map.mp hmem
    have hd : (lookupDep m key).any
        (fun v => v.version == clean_version valueStr) = true :=
      List.any_eq_true.mpr ⟨v, hv, by simp [hveq]⟩
    simp [process_dependency, hd]

/-- Witness for C2 at a concrete aggregate. -/
theorem process_dependency_nodup_invariant_witness :
    versionsNodup (process_dependency "a" "^1.2.0" "p"
      [("a", [PackageValue.new "a" "1.0.0" "q"])]) ∧
    process_dependency "a" "1.0.0" "x" [("a", [PackageValue.new "a" "1.0.0" "q"])] =
      [("a", [PackageValue.new "a" "1.0.0" "q"])] :=
  ⟨process_dependency_nodup_invariant.1 "a" "^1.2.0" "p" _ (by decide),
   process_dependency_nodup_invariant.2 "a" "1.0.0" "x" _ (by decide)⟩

/-- C3: the final filter keeps exactly the (name, sequence) pairs whose
sequence has more than one record and whose name is not ignored, and
leaves every surviving pair untouched and in its original order. -/
theorem keep_bad_values_filter :
    (∀ (m : Aggregate) (ignores : List String) (e : String × List PackageValue),
      e ∈ keep_bad_values m ignores ↔ e ∈ m ∧ 1 < e.2.length ∧ e.1 ∉ ignores) ∧
    (∀ (m : Aggregate) (ignores : List String),
      (keep_bad_values m ignores).Sublist m) := by
  constructor
  · intro m ignores e
    simp only [keep_bad_values, List.mem_filter, Bool.and_eq_true,
      decide_eq_true_eq, Bool.not_eq_true', List.any_eq_false, beq_iff_eq]
    constructor
    · rintro ⟨hmem, hlen, hni⟩
      exact ⟨hmem, hlen, fun hc => by simpa using hni e.1 hc⟩
    · rintro ⟨hmem, hlen, hni⟩
      exact ⟨hmem, hlen, fun i hi hie => hni (hie ▸ hi)⟩
  · intro m ignores
    exact List.filter_sublist m

/-- Witness for C3 at a concrete aggregate. -/
theorem keep_bad_values_filter_witness :
    ("b", [PackageValue.new "b" "1.0.0" "p", PackageValue.new "b" "2.0.0" "q"]) ∈
      keep_bad_values
        [("a", [PackageValue.new "a" "1.0.0" "p"]),
         ("b", [PackageValue.new "b" "1.0.0" "p", PackageValue.new "b" "2.0.0" "q"]),
         ("c", [PackageValue.new "c" "1.0.0" "p", PackageValue.new "c" "2.0.0" "q"])]
        ["c"] :=
  (keep_bad_values_filter.1 _ _ _).mpr (by decide)

/-- C8: an ignore fragment without a `/` is never applied, so filtering
any path list with only separator-free fragments returns the same files
as filtering with no fragments at all. -/
theorem ignore_fragment_needs_separator :
    ∀ (entries ignores : List String),
      (∀ i ∈ ignores, '/' ∉ i.data) →
      get_package_json_files entries ignores = get_package_json_files entries [] := by
  intro entries ignores h
  have hkeep : ∀ p, keepEntry ignores p = keepEntry [] p := by
    intro p
    simp only [keepEntry, List.any_nil, Bool.not_false, Bool.and_true]
    have hany : (ignores.any fun i =>
        i.data.any (fun c => c == '/') && containsSub i.data p.data) = false := by
      cases hc : (ignores.any fun i =>
          i.data.any (fun c => c == '/') && containsSub i.data p.data) with
      | false => rfl
      | true =>
        obtain ⟨i, hi, hcond⟩ := List.any_eq_true.mp hc
        rw [Bool.and_eq_true] at hcond
        obtain ⟨c, hcmem, hceq⟩ := List.any_eq_true.mp hcond.1
        rw [beq_iff_eq] at hceq
        exact absurd (hceq ▸ hcmem) (h i hi)
    rw [hany]
    simp
  unfold get_package_json_files
  rw [List.filter_congr (fun p _ => hkeep p)]

/-- Witness for C8 at a concrete path list. -/
theorem ignore_fragment_needs_separator_witness :
    get_package_json_files ["x/src/package.json"] ["src"] =
      get_package_json_files ["x/src/package.json"] [] :=
  ignore_fragment_needs_separator ["x/src/package.json"] ["src"] (by decide)

/-- C5: components compare numerically (missing or non-numeric ones as
`0`): `1.10.0` beats `1.3.0` because `10 > 3`, and two manifests
declaring mongoose `^1.3.0` then `1.10.0` aggregate to
`mongoose → [1.10.0, 1.3.0]`. -/
theorem mongoose_numeric_ordering :
    get_versions "1.10.0" = (1, 10, 0) ∧
    get_versions "1.3.0" = (1, 3, 0) ∧
    get_versions "2.1" = (2, 1, 0) ∧
    get_versions "1..3" = (1, 0, 3) ∧
    is_new_version_higher "1.10.0" [PackageValue.new "mongoose" "1.3.0" "a"] = true ∧
    build_hash_map (.obj [("devDependencies", .obj [("mongoose", .str "1.10.0")])]) "b"
        (build_hash_map (.obj [("dependencies", .obj [("mongoose", .str "^1.3.0")])]) "a"
          []) =
      [("mongoose", [PackageValue.new "mongoose" "1.10.0" "b",
                     PackageValue.new "mongoose" "1.3.0" "a"])] := by
  decide

/-- C9: a dependencies entry whose declared value is not a string
contributes nothing — removing it changes nothing — while string-valued
entries of the same manifest are still processed in order. -/
theorem traverse_deps_skips_nonstring :
    (∀ (kvs₁ kvs₂ : List (String × Json)) (k : String) (v : Json) (path : String)
        (m : Aggregate), v.asStr = none →
      traverse_deps (some (.obj (kvs₁ ++ (k, v) :: kvs₂))) m path =
        traverse_deps (some (.obj (kvs₁ ++ kvs₂))) m path) ∧
    (∀ (kvs : List (String × Json)) (k s path : String) (m : Aggregate),
      traverse_deps (some (.obj ((k, .str s) :: kvs))) m path =
        traverse_deps (some (.obj kvs)) (process_dependency k s path m) path) := by
  constructor
  · intro kvs₁ kvs₂ k v path m hv
    simp only [traverse_deps, List.foldl_append, List.foldl_cons, hv]
  · intro kvs k s path m
    simp [traverse_deps, Json.asStr]

/-- Witness for C9 at a concrete non-string entry. -/
theorem traverse_deps_skips_nonstring_witness :
    traverse_deps (some (.obj [("left", Json.num 7)])) [] "p" =
      traverse_deps (some (.obj [])) [] "p" :=
  traverse_deps_skips_nonstring.1 [] [] "left" (Json.num 7) "p" [] rfl

theorem buildAll_error_of_firstFail (pf : String → Except String Json)
    (paths : List String) : ∀ (m : Aggregate) (p e : String),
    firstFail pf paths = some (p, e) → buildAll pf m paths = .error e := by
  induction paths with
  | nil => intro m p e h; simp [firstFail] at h
  | cons q qs ih =>
    intro m p e h
    cases hq : pf q with
    | error e' =>
      simp only [firstFail, hq, Option.some_inj, Prod.mk.injEq] at h
      simp [buildAll, hq, h.2]
    | ok v =>
      simp only [firstFail, hq] at h
      simpa [buildAll, hq] using ih _ p e h

theorem buildAll_ok_iff (pf : String → Except String Json)
    (paths : List String) : ∀ m : Aggregate,
    (∃ a, buildAll pf m paths = .ok a) ↔ firstFail pf paths = none := by
  induction paths with
  | nil => intro m; simp [buildAll, firstFail]
  | cons q qs ih =>
    intro m
    cases hq : pf q with
    | error e => simp [buildAll, firstFail, hq]
    | ok v => simpa [buildAll, firstFail, hq] using ih _

/-- C4 counterexample: the failure does not report which path failed.
The abort surfaces only the parse error (the payload of the `unwrap()`
panic, which carries the io/serde error but not the manifest path), so
two runs whose failing manifest differs — `a/package.json` here versus
`b/package.json` — but whose parse error text coincides produce the
very same outcome; that outcome therefore cannot identify the failing
path, refuting the claim's path-reporting conjunct. -/
theorem fatal_manifest_no_path_report :
    (find_duplicate_dependencies
        (fun p => if p == "a/package.json" then
            .error "expected value at line 1 column 1"
          else .ok (.obj []))
        (.ok "") ["a/package.json", "b/package.json"] =
      find_duplicate_dependencies
        (fun p => if p == "b/package.json" then
            .error "expected value at line 1 column 1"
          else .ok (.obj []))
        (.ok "") ["a/package.json", "b/package.json"]) ∧
    find_duplicate_dependencies
        (fun p => if p == "a/package.json" then
            .error "expected value at line 1 column 1"
          else .ok (.obj []))
        (.ok "") ["a/package.json", "b/package.json"] =
      .error "expected value at line 1 column 1" :=
  ⟨rfl, rfl⟩

/-- C4 as amended: the run produces a result mapping exactly when every
manifest in the supplied path sequence parses; otherwise it aborts at
once with the first failing manifest's parse error (which does not name
the path) — no partial mapping and no silent skip. -/
theorem fatal_manifest_failure :
    (∀ (pf : String → Except String Json) (rd : Except String String)
        (paths : List String),
      (∃ a, find_duplicate_dependencies pf rd paths = .ok a) ↔
        firstFail pf paths = none) ∧
    (∀ (pf : String → Except String Json) (rd : Except String String)
        (paths : List String) (p e : String),
      firstFail pf paths = some (p, e) →
      find_duplicate_dependencies pf rd paths = .error e) := by
  constructor
  · intro pf rd paths
    unfold find_duplicate_dependencies
    cases h : buildAll pf [] paths with
    | error e =>
      constructor
      · rintro ⟨a, ha⟩
        simp at ha
      · intro hnone
        obtain ⟨a, ha⟩ := (buildAll_ok_iff pf paths []).mpr hnone
        rw [h] at ha
        simp at ha
    | ok mm =>
      have hnone := (buildAll_ok_iff pf paths []).mp ⟨mm, h⟩
      simp [hnone]
  · intro pf rd paths p e h
    simp [find_duplicate_dependencies, buildAll_error_of_firstFail pf paths [] p e h]

/-- Witness for C4 with a concrete failing manifest. -/
theorem fatal_manifest_failure_witness :
    find_duplicate_dependencies
        (fun p => if p == "broken/package.json" then .error "decode failure"
                  else .ok (.obj []))
        (.ok "") ["ok/package.json", "broken/package.json", "later/package.json"] =
      .error "decode failure" :=
  fatal_manifest_failure.2 _ (.ok "")
    ["ok/package.json", "broken/package.json", "later/package.json"]
    "broken/package.json" "decode failure" (by decide)
